import Mathlib

/-!
Verification development for the SpINUp repository (spectral inference networks).

The repository contains two working training variants and one abandoned one:
* `jax_spin.py` — class `SpIN` (methods `evaluate_spin`, `masked_gradients`,
  `loss_and_grad`, `train`, `eigenpairs`);
* `stfn_training.py` — `covariance` with a custom vjp, `train_step`, `ModelTrainer`;
* `train_spin.py` — `calculate_masked_gradient`, `train_step` (a debug variant);
* `backbone.py` — the `EigenNet` network with a built-in boundary factor.

Matrices are embedded over `ℝ`; a batch of `N` outputs of a `k`-output network is an
`N × k` matrix.  Network parameter collections (jax pytrees) are flattened to vectors
indexed by `Fin p`; jax's `tree_multimap` acts leafwise, which the flat vector
represents elementwise.  `jnp.linalg.cholesky` is embedded as a genuine Cholesky
factorization built from Mathlib's LDL decomposition.
-/

open Matrix BigOperators

/-- Shortcut instance so that Mathlib's `LDL` declarations elaborate on `Fin k`. -/
instance finWellFoundedLT (k : ℕ) : WellFoundedLT (Fin k) := inferInstance

namespace SpINUp

/-- Lower-triangular predicate: all entries strictly above the diagonal vanish. -/
def LowerTri {k : ℕ} (M : Matrix (Fin k) (Fin k) ℝ) : Prop :=
  ∀ i j : Fin k, i < j → M i j = 0

/-- The Gram-Schmidt procedure applied to a basis keeps the diagonal coefficient equal
to `1`: the result at index `i` is the basis vector `b i` minus a combination of earlier
basis vectors. -/
theorem gramSchmidt_repr_diag {𝕜 : Type _} {E : Type _} [RCLike 𝕜] [NormedAddCommGroup E]
    [InnerProductSpace 𝕜 E] {ι : Type _} [LinearOrder ι] [LocallyFiniteOrderBot ι]
    [WellFoundedLT ι] (b : Basis ι 𝕜 E) (i : ι) :
    b.repr (gramSchmidt 𝕜 (⇑b) i) i = 1 := by
  have hmem : gramSchmidt 𝕜 (⇑b) i - b i ∈ Submodule.span 𝕜 (⇑b '' Set.Iio i) := by
    rw [gramSchmidt_def 𝕜 (⇑b) i, sub_sub_cancel_left]
    refine Submodule.neg_mem _ (Submodule.sum_mem _ fun j hj => ?_)
    rw [orthogonalProjection_singleton]
    refine Submodule.smul_mem _ _ ?_
    rw [← span_gramSchmidt_Iio 𝕜 (⇑b) i]
    exact Submodule.subset_span ⟨j, Finset.mem_Iio.mp hj, rfl⟩
  have hsupp : ↑(b.repr (gramSchmidt 𝕜 (⇑b) i - b i)).support ⊆ Set.Iio i :=
    Basis.repr_support_subset_of_mem_span b (Set.Iio i) hmem
  have hz : b.repr (gramSchmidt 𝕜 (⇑b) i - b i) i = 0 := by
    by_contra h
    exact Set.not_mem_Iio_self (hsupp (Finsupp.mem_support_iff.mpr h))
  rw [map_sub, Finsupp.sub_apply] at hz
  have h3 : b.repr (b i) i = 1 := by simp
  have h4 := sub_eq_zero.mp hz
  rw [h4, h3]

/-- The matrix `LDL.lowerInv` has unit diagonal. -/
theorem LDL_lowerInv_diag_one {k : ℕ} {S : Matrix (Fin k) (Fin k) ℝ} (hS : S.PosDef)
    (i : Fin k) : LDL.lowerInv hS i i = 1 := by
  have h := @gramSchmidt_repr_diag ℝ (Fin k → ℝ) _ (_ : _)
      (InnerProductSpace.ofMatrix hS.transpose) (Fin k) _ _ _ (Pi.basisFun ℝ (Fin k)) i
  rw [Pi.basisFun_repr] at h
  rw [LDL.lowerInv]
  exact h

/-- Diagonal entries of the LDL decomposition of a positive-definite real matrix are
positive: each is `⟨v, S v⟩` for the nonzero row `v` of `LDL.lowerInv`. -/
theorem LDL_diagEntries_pos {k : ℕ} {S : Matrix (Fin k) (Fin k) ℝ} (hS : S.PosDef)
    (i : Fin k) : 0 < LDL.diagEntries hS i := by
  have hrow : LDL.lowerInv hS i ≠ 0 := by
    intro h0
    have h1 : LDL.lowerInv hS i i = 0 := by rw [h0]; rfl
    rw [LDL_lowerInv_diag_one hS i] at h1
    exact one_ne_zero h1
  have hpos := hS.2 (LDL.lowerInv hS i) hrow
  have hE : LDL.diagEntries hS i =
      dotProduct (star (star (LDL.lowerInv hS i))) (S *ᵥ star (LDL.lowerInv hS i)) := by
    rw [LDL.diagEntries, EuclideanSpace.inner_piLp_equiv_symm]
  rw [hE]
  simpa using hpos

/-- `LDL.lowerInv` has determinant 1: it is lower triangular with unit diagonal. -/
theorem LDL_lowerInv_det_one {k : ℕ} {S : Matrix (Fin k) (Fin k) ℝ} (hS : S.PosDef) :
    (LDL.lowerInv hS).det = 1 := by
  have ht : (LDL.lowerInv hS).BlockTriangular OrderDual.toDual := fun i j hji =>
    LDL.lowerInv_triangular hS (OrderDual.toDual_lt_toDual.mp hji)
  rw [Matrix.det_of_lowerTriangular _ ht]
  simp [LDL_lowerInv_diag_one hS]

/-- `IsUnit` of the determinant of `LDL.lowerInv`. -/
theorem LDL_lowerInv_det_isUnit {k : ℕ} {S : Matrix (Fin k) (Fin k) ℝ} (hS : S.PosDef) :
    IsUnit (LDL.lowerInv hS).det := by
  rw [LDL_lowerInv_det_one hS]; exact isUnit_one

/-- The inverse of `LDL.lowerInv` (the matrix `L` of the decomposition) is lower
triangular. -/
theorem LDL_lowerInv_inv_lowerTri {k : ℕ} {S : Matrix (Fin k) (Fin k) ℝ} (hS : S.PosDef) :
    LowerTri (LDL.lowerInv hS)⁻¹ := by
  haveI := (LDL.lowerInv hS).invertibleOfIsUnitDet (LDL_lowerInv_det_isUnit hS)
  have ht : (LDL.lowerInv hS).BlockTriangular OrderDual.toDual := fun i j hji =>
    LDL.lowerInv_triangular hS (OrderDual.toDual_lt_toDual.mp hji)
  have h2 := Matrix.blockTriangular_inv_of_blockTriangular ht
  exact fun i j hij => h2 (OrderDual.toDual_lt_toDual.mpr hij)

/-- For lower-triangular matrices the diagonal of a product is the product of the
diagonals. -/
theorem LowerTri.mul_diag {k : ℕ} {A B : Matrix (Fin k) (Fin k) ℝ} (hA : LowerTri A)
    (hB : LowerTri B) (i : Fin k) : (A * B) i i = A i i * B i i := by
  rw [Matrix.mul_apply]
  refine Finset.sum_eq_single i (fun j _ hj => ?_) (by simp)
  rcases lt_or_gt_of_ne hj with h | h
  · rw [hB j i h, mul_zero]
  · rw [hA i j h, zero_mul]

/-- `LDL.lowerInv` is lower triangular (restated through `LowerTri`). -/
theorem LDL_lowerInv_lowerTri {k : ℕ} {S : Matrix (Fin k) (Fin k) ℝ} (hS : S.PosDef) :
    LowerTri (LDL.lowerInv hS) := fun _ _ hij => LDL.lowerInv_triangular hS hij

/-- The inverse of `LDL.lowerInv` has unit diagonal. -/
theorem LDL_lowerInv_inv_diag_one {k : ℕ} {S : Matrix (Fin k) (Fin k) ℝ} (hS : S.PosDef)
    (i : Fin k) : (LDL.lowerInv hS)⁻¹ i i = 1 := by
  have hmul : (LDL.lowerInv hS)⁻¹ * LDL.lowerInv hS = 1 :=
    Matrix.nonsing_inv_mul _ (LDL_lowerInv_det_isUnit hS)
  have hd := LowerTri.mul_diag (LDL_lowerInv_inv_lowerTri hS) (LDL_lowerInv_lowerTri hS) i
  rw [hmul, Matrix.one_apply_eq, LDL_lowerInv_diag_one hS i, mul_one] at hd
  exact hd.symm

/-- Conjugating `S` by `LDL.lowerInv` diagonalizes it (restated with the standard
instances on `ℝ`). -/
theorem LDL_conj {k : ℕ} {S : Matrix (Fin k) (Fin k) ℝ} (hS : S.PosDef) :
    LDL.lowerInv hS * S * (LDL.lowerInv hS)ᴴ = Matrix.diagonal (LDL.diagEntries hS) := by
  have h := (LDL.diag_eq_lowerInv_conj hS).symm
  rw [LDL.diag] at h
  convert h using 2

/-- The LDL decomposition written with the inverse on the other side:
`S = L · D · Lᵀ` where `L = (LDL.lowerInv)⁻¹`. -/
theorem LDL_S_eq {k : ℕ} {S : Matrix (Fin k) (Fin k) ℝ} (hS : S.PosDef) :
    S = (LDL.lowerInv hS)⁻¹ * Matrix.diagonal (LDL.diagEntries hS) *
      ((LDL.lowerInv hS)⁻¹)ᵀ := by
  have hdet := LDL_lowerInv_det_isUnit hS
  have hconj := LDL_conj hS
  have hH : (LDL.lowerInv hS)ᴴ = (LDL.lowerInv hS)ᵀ := by
    ext a b; simp [Matrix.conjTranspose_apply]
  rw [hH] at hconj
  have hdetT : IsUnit ((LDL.lowerInv hS)ᵀ).det := by
    rw [Matrix.det_transpose]; exact hdet
  have e1 : (LDL.lowerInv hS)⁻¹ * Matrix.diagonal (LDL.diagEntries hS) *
      ((LDL.lowerInv hS)⁻¹)ᵀ =
      (LDL.lowerInv hS)⁻¹ * (LDL.lowerInv hS * S * (LDL.lowerInv hS)ᵀ) *
      ((LDL.lowerInv hS)ᵀ)⁻¹ := by
    rw [hconj, Matrix.transpose_nonsing_inv]
  have e2 : (LDL.lowerInv hS)⁻¹ * (LDL.lowerInv hS * S * (LDL.lowerInv hS)ᵀ) *
      ((LDL.lowerInv hS)ᵀ)⁻¹ =
      (LDL.lowerInv hS)⁻¹ * LDL.lowerInv hS * S *
      ((LDL.lowerInv hS)ᵀ * ((LDL.lowerInv hS)ᵀ)⁻¹) := by
    simp only [Matrix.mul_assoc]
  have e3 : (LDL.lowerInv hS)⁻¹ * LDL.lowerInv hS * S *
      ((LDL.lowerInv hS)ᵀ * ((LDL.lowerInv hS)ᵀ)⁻¹) = S := by
    rw [Matrix.nonsing_inv_mul _ hdet, Matrix.mul_nonsing_inv _ hdetT,
      Matrix.one_mul, Matrix.mul_one]
  exact (e1.trans (e2.trans e3)).symm

open scoped Classical in
/-- Embedding of `jnp.linalg.cholesky` (`jax_spin.py` line 130, `stfn_training.py`
line 83, `train_spin.py` line 53): the lower-triangular Cholesky factor of a
positive-definite matrix, built from Mathlib's LDL decomposition as
`L_chol = (LDL.lowerInv)⁻¹ · diag(√dᵢ)`.  On inputs that are not positive definite the
embedding returns the zero matrix (jax produces NaN entries there, which have no
counterpart over `ℝ`; no theorem below depends on that branch). -/
noncomputable def cholesky {k : ℕ} (S : Matrix (Fin k) (Fin k) ℝ) :
    Matrix (Fin k) (Fin k) ℝ :=
  if hS : S.PosDef then
    (LDL.lowerInv hS)⁻¹ * Matrix.diagonal (fun i => Real.sqrt (LDL.diagEntries hS i))
  else 0

/-- The Cholesky factor of a positive-definite matrix is lower triangular. -/
theorem cholesky_lowerTri {k : ℕ} {S : Matrix (Fin k) (Fin k) ℝ} (hS : S.PosDef) :
    LowerTri (cholesky S) := by
  rw [cholesky, dif_pos hS]
  intro i j hij
  rw [Matrix.mul_diagonal]
  rw [LDL_lowerInv_inv_lowerTri hS i j hij, zero_mul]

/-- The Cholesky factor of a positive-definite matrix has positive diagonal. -/
theorem cholesky_diag_pos {k : ℕ} {S : Matrix (Fin k) (Fin k) ℝ} (hS : S.PosDef)
    (i : Fin k) : 0 < cholesky S i i := by
  rw [cholesky, dif_pos hS, Matrix.mul_diagonal, LDL_lowerInv_inv_diag_one hS i, one_mul]
  exact Real.sqrt_pos.mpr (LDL_diagEntries_pos hS i)

/-- The Cholesky factorization property: `L · Lᵀ = S`. -/
theorem cholesky_mul_transpose {k : ℕ} {S : Matrix (Fin k) (Fin k) ℝ} (hS : S.PosDef) :
    cholesky S * (cholesky S)ᵀ = S := by
  rw [cholesky, dif_pos hS, Matrix.transpose_mul, Matrix.diagonal_transpose]
  have e1 : (LDL.lowerInv hS)⁻¹ *
      Matrix.diagonal (fun i => Real.sqrt (LDL.diagEntries hS i)) *
      (Matrix.diagonal (fun i => Real.sqrt (LDL.diagEntries hS i)) *
        ((LDL.lowerInv hS)⁻¹)ᵀ) =
      (LDL.lowerInv hS)⁻¹ *
      (Matrix.diagonal (fun i => Real.sqrt (LDL.diagEntries hS i)) *
        Matrix.diagonal (fun i => Real.sqrt (LDL.diagEntries hS i))) *
      ((LDL.lowerInv hS)⁻¹)ᵀ := by
    simp only [Matrix.mul_assoc]
  rw [e1, Matrix.diagonal_mul_diagonal]
  have e2 : (fun i => Real.sqrt (LDL.diagEntries hS i) * Real.sqrt (LDL.diagEntries hS i)) =
      LDL.diagEntries hS := by
    funext i
    exact Real.mul_self_sqrt (LDL_diagEntries_pos hS i).le
  rw [e2]
  exact (LDL_S_eq hS).symm

/-- The Cholesky factor has a positive determinant, hence is invertible. -/
theorem cholesky_det_isUnit {k : ℕ} {S : Matrix (Fin k) (Fin k) ℝ} (hS : S.PosDef) :
    IsUnit (cholesky S).det := by
  have h := congrArg Matrix.det (cholesky_mul_transpose hS)
  rw [Matrix.det_mul, Matrix.det_transpose] at h
  have hSdet := hS.det_pos
  refine isUnit_iff_ne_zero.mpr fun h0 => ?_
  rw [h0, mul_zero] at h
  rw [← h] at hSdet
  exact lt_irrefl _ hSdet

/-- Round trip of the whitening transform: `L · L⁻¹ = 1`. -/
theorem cholesky_mul_inv {k : ℕ} {S : Matrix (Fin k) (Fin k) ℝ} (hS : S.PosDef) :
    cholesky S * (cholesky S)⁻¹ = 1 :=
  Matrix.mul_nonsing_inv _ (cholesky_det_isUnit hS)

/-- On the `1 × 1` identity matrix the Cholesky factor is the identity: its single
entry is positive and squares to `1`. -/
theorem cholesky_one_fin1 : cholesky (1 : Matrix (Fin 1) (Fin 1) ℝ) = 1 := by
  have hpd : (1 : Matrix (Fin 1) (Fin 1) ℝ).PosDef := Matrix.PosDef.one
  have hmul := cholesky_mul_transpose hpd
  have h00 : cholesky (1 : Matrix (Fin 1) (Fin 1) ℝ) 0 0 *
      cholesky (1 : Matrix (Fin 1) (Fin 1) ℝ) 0 0 = 1 := by
    have h := congrFun (congrFun hmul 0) 0
    rw [Matrix.mul_apply] at h
    simpa [Fin.sum_univ_one, Matrix.transpose_apply] using h
  have hpos := cholesky_diag_pos hpd 0
  have hone : cholesky (1 : Matrix (Fin 1) (Fin 1) ℝ) 0 0 = 1 := by
    rcases mul_self_eq_one_iff.mp h00 with h | h
    · exact h
    · rw [h] at hpos; linarith
  ext i j
  fin_cases i
  fin_cases j
  simpa using hone

/-! ## Shared batch-level operations -/

/-- `covariance` from `stfn_training.py` lines 45-47 (also `np.dot(u.T, u)/n` in
`jax_spin.py` line 126 and the batched outer-product means of `train_spin.py`
lines 44-48): entrywise `(1/N) ∑_b u1[b,i] · u2[b,j]`. -/
noncomputable def covariance {N k : ℕ} (u1 u2 : Matrix (Fin N) (Fin k) ℝ) :
    Matrix (Fin k) (Fin k) ℝ :=
  Matrix.of fun i j => (∑ b, u1 b i * u2 b j) / N

/-- Modelled from the spec: `helper.moving_average` is imported by `train_spin.py` and
`stfn_training.py` but `helper.py` is not under `src/`; spec §4.1 defines the update as
`X̄ ← (1−β)·X̄ + β·X_batch`, applied elementwise/tensorwise. -/
def moving_average {E : Type _} [AddCommMonoid E] [Module ℝ E]
    (xbar x : E) (beta : ℝ) : E :=
  (1 - beta) • xbar + beta • x

/-- Upper-triangular part including the diagonal (`jnp.triu`). -/
def triu {k : ℕ} (M : Matrix (Fin k) (Fin k) ℝ) : Matrix (Fin k) (Fin k) ℝ :=
  Matrix.of fun i j => if i ≤ j then M i j else 0

/-! ## stfn_training.py -/

/-- `covariance_bwd` from `stfn_training.py` lines 52-54: the custom backward rule
registered for `covariance`; for a cotangent `g` it returns
`((u2 @ g)/batch_size, (u1 @ g)/batch_size)`. -/
noncomputable def covariance_bwd {N k : ℕ} (u1 u2 : Matrix (Fin N) (Fin k) ℝ)
    (g : Matrix (Fin k) (Fin k) ℝ) :
    Matrix (Fin N) (Fin k) ℝ × Matrix (Fin N) (Fin k) ℝ :=
  (((N : ℝ))⁻¹ • (u2 * g), ((N : ℝ))⁻¹ • (u1 * g))

/-- Reverse-mode pullback of an output cotangent through the network: jax's vjp of
`model_apply_jitted` contracts the cotangent with the parameter Jacobian `du` of the
batched network output (parameters flattened to `Fin p`). -/
def vjp_pullback {N k p : ℕ} (du : Fin N → Fin k → Fin p → ℝ)
    (c : Matrix (Fin N) (Fin k) ℝ) : Fin p → ℝ :=
  fun w => ∑ b, ∑ i, c b i * du b i w

/-- `jax.jacrev(sigma_from_theta)` (`stfn_training.py` line 74): the `(i,j)` entry of
the Jacobian is the vjp of `sigma_from_theta` at the standard-basis cotangent `E i j`.
`sigma_from_theta θ = covariance (u θ) (u θ)` goes through the custom vjp of
`covariance`, and both arguments are the network output, so both returned cotangents
are pulled back through the network Jacobian `du` and added. -/
noncomputable def jacrev_sigma {N k p : ℕ} (u : Matrix (Fin N) (Fin k) ℝ)
    (du : Fin N → Fin k → Fin p → ℝ) : Fin k → Fin k → Fin p → ℝ :=
  fun i j =>
    vjp_pullback du (covariance_bwd u u (Matrix.stdBasisMatrix i j 1)).1 +
    vjp_pullback du (covariance_bwd u u (Matrix.stdBasisMatrix i j 1)).2

/-- `jax.vjp(pi_from_theta)` applied to a cotangent `g` (`stfn_training.py`
lines 86-88): `pi_from_theta θ = covariance (u θ) (h_u θ)`; the custom vjp of
`covariance` assigns the cotangent `(h_u @ g)/N` to the `u`-branch and `(u @ g)/N` to
the `h_u`-branch, which are pulled back through the parameter Jacobians `du` of the
network and `dhu` of the Hamiltonian application. -/
noncomputable def vjp_pi {N k p : ℕ} (u hu : Matrix (Fin N) (Fin k) ℝ)
    (du dhu : Fin N → Fin k → Fin p → ℝ) (g : Matrix (Fin k) (Fin k) ℝ) : Fin p → ℝ :=
  vjp_pullback du (covariance_bwd u hu g).1 + vjp_pullback dhu (covariance_bwd u hu g).2

/-- All intermediate values of one `train_step` of `stfn_training.py` (lines 59-105),
with fields named after the source locals. -/
structure StfnStep (k p : ℕ) where
  jSigmaTHat : Fin k → Fin k → Fin p → ℝ
  jSigmaTBar : Fin k → Fin k → Fin p → ℝ
  sigma : Matrix (Fin k) (Fin k) ℝ
  sigmaTBar : Matrix (Fin k) (Fin k) ℝ
  L : Matrix (Fin k) (Fin k) ℝ
  LInv : Matrix (Fin k) (Fin k) ℝ
  pi : Matrix (Fin k) (Fin k) ℝ
  A1JPi : Fin p → ℝ
  Lambda : Matrix (Fin k) (Fin k) ℝ
  energies : Fin k → ℝ
  loss : ℝ
  A2 : Matrix (Fin k) (Fin k) ℝ
  gradients : Fin p → ℝ

/-- `train_step` of `stfn_training.py` (lines 59-105).  The network evaluation on the
batch and the Hamiltonian application enter as inputs together with the parameter
Jacobians that jax's `jacrev`/`vjp` use for them: `u = model_apply_jitted(θ, batch)`,
`hu = h_fn(θ, batch, u)`, `du`/`dhu` their parameter Jacobians at the current point.
`sigma_t_bar`/`j_sigma_t_bar` are the persistent moving averages and `beta` the
`moving_average_beta` argument (the `augmented_beta` of line 73 equals it).  The
`gradients` field is the pytree handed to `opt_update` on line 102; the source applies
no negation to it.  The returned state is
`(loss, weight_dict, energies, sigmaTBar, jSigmaTBar, LInv, opt_state)`. -/
noncomputable def stfn_train_step {N k p : ℕ}
    (u hu : Matrix (Fin N) (Fin k) ℝ) (du dhu : Fin N → Fin k → Fin p → ℝ)
    (sigma_t_bar : Matrix (Fin k) (Fin k) ℝ)
    (j_sigma_t_bar : Fin k → Fin k → Fin p → ℝ) (beta : ℝ) : StfnStep k p :=
  let jSigmaTHat := jacrev_sigma u du
  let jSigmaTBar := moving_average j_sigma_t_bar jSigmaTHat beta
  let sigma := covariance u u
  let sigmaTBar := moving_average sigma_t_bar sigma beta
  let L := cholesky sigmaTBar
  let LInv := L⁻¹
  let pi := covariance u hu
  let A1JPi := vjp_pi u hu du dhu (LInvᵀ * Matrix.diagonal fun i => LInv i i)
  let Lambda := LInv * pi * LInvᵀ
  let energies := fun i => Lambda i i
  let loss := ∑ i, energies i
  let A2 := -(LInvᵀ * triu (Lambda * Matrix.diagonal fun i => LInv i i))
  let gradients := fun w => (∑ i, ∑ j, A2 i j * jSigmaTBar i j w) + A1JPi w
  ⟨jSigmaTHat, jSigmaTBar, sigma, sigmaTBar, L, LInv, pi, A1JPi, Lambda, energies,
    loss, A2, gradients⟩

/-- `stfn_training.py` line 73: `augmented_beta = moving_average_beta` at every epoch
(the epoch-dependent formula is commented out in the source). -/
def stfn_augmented_beta (moving_average_beta : ℝ) (_epoch : ℕ) : ℝ := moving_average_beta

/-- `ModelTrainer.moving_average_beta = 0.01` (`stfn_training.py` line 130). -/
noncomputable def stfn_moving_average_beta : ℝ := 1 / 100

/-- `stfn_training.py` line 153: `sigma_t_bar` is initialized to `jnp.eye(n_eigenfuncs)`. -/
def stfn_init_sigma (k : ℕ) : Matrix (Fin k) (Fin k) ℝ := 1

/-- `stfn_training.py` line 154: `j_sigma_t_bar` is initialized to zero tensors of
shape `(k, k) + param.shape` for every parameter leaf. -/
def stfn_init_j_sigma (k p : ℕ) : Fin k → Fin k → Fin p → ℝ := fun _ _ _ => 0

/-! ## jax_spin.py -/

/-- The outputs tuple of `SpIN.evaluate_spin` (`jax_spin.py` line 139):
`(u, choli, pi, rq, operator)`. -/
structure SpinOutputs (N k : ℕ) where
  u : Matrix (Fin N) (Fin k) ℝ
  choli : Matrix (Fin k) (Fin k) ℝ
  pi : Matrix (Fin k) (Fin k) ℝ
  rq : Matrix (Fin k) (Fin k) ℝ
  operator : Matrix (Fin N) (Fin k) ℝ

/-- `SpIN.evaluate_spin` (`jax_spin.py` lines 118-139).  `net_u` is the masked network
`self.net_u` and `operator` the operator application `self.operator(self.net_u, ·, ·)`;
`params` and `inputs` are the current parameters and batch, `sigma_avg` the covariance
moving average (the first component of `averages`; the second component is unused by
this method), `beta` the blending factor.  Returns the outputs tuple and the updated
`sigma_avg` (line 127 blends inline). -/
noncomputable def evaluate_spin {Θ I : Type _} {N k : ℕ}
    (net_u : Θ → I → Matrix (Fin N) (Fin k) ℝ)
    (operator : Θ → I → Matrix (Fin N) (Fin k) ℝ) (params : Θ) (inputs : I)
    (sigma_avg : Matrix (Fin k) (Fin k) ℝ) (beta : ℝ) :
    SpinOutputs N k × Matrix (Fin k) (Fin k) ℝ :=
  let u := net_u params inputs
  let sigma := covariance u u
  let sigma_avg' := (1 - beta) • sigma_avg + beta • sigma
  let chol := cholesky sigma_avg'
  let choli := chol⁻¹
  let op := operator params inputs
  let pi := covariance op u
  let rq := choli * pi * choliᵀ
  (⟨u, choli, pi, rq, op⟩, sigma_avg')

/-- The pair returned by `SpIN.masked_gradients` (`jax_spin.py` line 178): the
parameter gradient and the updated Jacobian moving average. -/
structure SpinGradients (k p : ℕ) where
  gradients : Fin p → ℝ
  sigma_jac_avg : Fin k → Fin k → Fin p → ℝ

/-- `SpIN.masked_gradients` (`jax_spin.py` lines 141-178).  `outputs` is the tuple from
`evaluate_spin`, `sigma_jac_avg` the Jacobian moving average (the second component of
`averages`), `grad_theta` the per-sample parameter Jacobian of `net_u` on the batch
(what `vmap(jacfwd(self.net_u))` of lines 153-156 computes), `beta` the blending
factor; `N` is the batch size `n = inputs.shape[0]`.  The final negation of line 176 is
folded into the `gradients` value. -/
noncomputable def spin_masked_gradients {N k p : ℕ} (outputs : SpinOutputs N k)
    (sigma_jac_avg : Fin k → Fin k → Fin p → ℝ)
    (grad_theta : Fin N → Fin k → Fin p → ℝ) (beta : ℝ) : SpinGradients k p :=
  let u := outputs.u
  let choli := outputs.choli
  let rq := outputs.rq
  let op := outputs.operator
  let dl := Matrix.diagonal fun i => choli i i
  let grad_sigma := -(choliᵀ * triu (rq * dl))
  let grad_pi := choliᵀ * dl
  let sigma_jac := fun i j w => ∑ b, u b i * grad_theta b j w
  let sigma_jac_avg' := fun i j w =>
    (1 - beta) * sigma_jac_avg i j w + beta * sigma_jac i j w
  let gradient_pi_1 := grad_piᵀ * opᵀ
  let gradients := fun w =>
    -(((∑ i, ∑ b, gradient_pi_1 i b * grad_theta b i w) +
        (∑ a, ∑ c, grad_sigmaᵀ a c * sigma_jac_avg' c a w)) / N)
  ⟨gradients, sigma_jac_avg'⟩

/-- `SpIN.loss_and_grad` (`jax_spin.py` lines 180-207): evaluate the SpIN model, read
the eigenvalues off the diagonal of `rq`, sum them into the loss, compute the masked
gradients, and return the loss, the gradients and the updated averages.
`grad_theta_fn` is the `vmap(jacfwd(net_u))` oracle used by `masked_gradients`. -/
noncomputable def loss_and_grad {Θ I : Type _} {N k p : ℕ}
    (net_u : Θ → I → Matrix (Fin N) (Fin k) ℝ)
    (operator : Θ → I → Matrix (Fin N) (Fin k) ℝ)
    (grad_theta_fn : Θ → I → Fin N → Fin k → Fin p → ℝ) (params : Θ) (inputs : I)
    (averages : Matrix (Fin k) (Fin k) ℝ × (Fin k → Fin k → Fin p → ℝ)) (beta : ℝ) :
    ℝ × (Fin p → ℝ) × (Matrix (Fin k) (Fin k) ℝ × (Fin k → Fin k → Fin p → ℝ)) :=
  let es := evaluate_spin net_u operator params inputs averages.1 beta
  let eigenvalues := fun i => (es.1).rq i i
  let loss := ∑ i, eigenvalues i
  let mg := spin_masked_gradients (es.1) averages.2 (grad_theta_fn params inputs) beta
  (loss, mg.gradients, (es.2, mg.sigma_jac_avg))

/-- `SpIN.eigenpairs` (`jax_spin.py` lines 262-268): `evals = np.diag(rq)` and
`efuns = np.matmul(u, choli.T)`. -/
noncomputable def eigenpairs {Θ I : Type _} {N k : ℕ}
    (net_u : Θ → I → Matrix (Fin N) (Fin k) ℝ)
    (operator : Θ → I → Matrix (Fin N) (Fin k) ℝ) (params : Θ) (inputs : I)
    (sigma_avg : Matrix (Fin k) (Fin k) ℝ) (beta : ℝ) :
    (Fin k → ℝ) × Matrix (Fin N) (Fin k) ℝ :=
  let outputs := (evaluate_spin net_u operator params inputs sigma_avg beta).1
  (fun i => outputs.rq i i, outputs.u * outputs.choliᵀ)

/-- `jax_spin.py` line 243 in `SpIN.train`: the β used at iteration `cnt` —
`self.beta` when `cnt > 0`, else `1.0`. -/
def spin_train_beta (self_beta : ℝ) (cnt : ℕ) : ℝ := if 0 < cnt then self_beta else 1

/-- `jax_spin.py` line 235: the covariance moving average is seeded with
`np.ones(self.neig)`, a length-`k` vector of ones. -/
def spin_init_sigma_avg (k : ℕ) : Fin k → ℝ := fun _ => 1

/-- The seed vector `np.ones(k)` as it enters the `k × k` blend of `evaluate_spin`
line 127: numpy broadcasting repeats the length-`k` vector along rows, giving the
all-ones matrix. -/
def spin_init_sigma_avg_mat (k : ℕ) : Matrix (Fin k) (Fin k) ℝ :=
  Matrix.of fun _ j => spin_init_sigma_avg k j

/-- `SpIN.init_sigma_jac` (`jax_spin.py` lines 209-217):
`tree_multimap(lambda x: np.tensordot(u.T, x, 1) * 0, grad_theta)`. -/
noncomputable def spin_init_sigma_jac {N k p : ℕ} (u : Matrix (Fin N) (Fin k) ℝ)
    (grad_theta : Fin N → Fin k → Fin p → ℝ) : Fin k → Fin k → Fin p → ℝ :=
  fun i j w => (∑ b, u b i * grad_theta b j w) * 0

/-! ## train_spin.py -/

/-- Body of `calculate_masked_gradient` (`train_spin.py` lines 43-79) in the state
where the module global `j_sigma_t_bar` is bound to `jbar`.  Parameters are modelled as
a single dense kernel flattened to `Fin p`, so `del_u_del_weights` is the Jacobian
`del_u` and the loop over the parameter keys has one iteration.  Returns the masked
gradient (the `FrozenDict(del_u_del_weights)` return value) together with the value
stored into the global `j_sigma_t_bar[key]` on line 73. -/
noncomputable def calculate_masked_gradient_body {N k p : ℕ}
    (del_u : Fin N → Fin k → Fin p → ℝ) (pred hu : Matrix (Fin N) (Fin k) ℝ)
    (sigma_t_bar : Matrix (Fin k) (Fin k) ℝ) (jbar : Fin p → ℝ)
    (moving_average_beta : ℝ) : (Fin p → ℝ) × (Fin p → ℝ) :=
  let sigma_t_hat := covariance pred pred
  let pi_t_hat := covariance hu pred
  let sigma_t_bar' := moving_average sigma_t_bar sigma_t_hat moving_average_beta
  let L := cholesky sigma_t_bar'
  let L_inv := L⁻¹
  let L_inv_T := L_invᵀ
  let L_diag_inv := Matrix.of fun i j => (1 : Matrix (Fin k) (Fin k) ℝ) i j * (L j j)⁻¹
  let A_1 := hu * (L_inv_T * L_diag_inv)
  let Lambda := L_inv * pi_t_hat * L_inv_T
  let A_2 := pred * (L_inv_T * triu (Lambda * L_diag_inv))
  let j_pi_t_hat := fun w => (∑ b, ∑ j, A_1 b j * del_u b j w) / N
  let j_sigma_t_hat := fun w => (∑ b, ∑ j, A_2 b j * del_u b j w) / N
  let jbar' := moving_average jbar j_sigma_t_hat moving_average_beta
  (fun w => j_pi_t_hat w - jbar' w, jbar')

/-- `calculate_masked_gradient` (`train_spin.py` lines 43-79) with Python name
resolution for `j_sigma_t_bar`: the name is only subscript-assigned inside the function
(line 73), which in Python does not create a local binding, so it is resolved as a
module global — a `NameError` is raised when the global is absent (the module imported
without executing its `__main__` block); otherwise the body runs (and mutates the
global). -/
noncomputable def calculate_masked_gradient {N k p : ℕ}
    (globals_j_sigma_t_bar : Option (Fin p → ℝ))
    (del_u : Fin N → Fin k → Fin p → ℝ) (pred hu : Matrix (Fin N) (Fin k) ℝ)
    (sigma_t_bar : Matrix (Fin k) (Fin k) ℝ) (moving_average_beta : ℝ) :
    Except Unit ((Fin p → ℝ) × (Fin p → ℝ)) :=
  match globals_j_sigma_t_bar with
  | none => Except.error ()
  | some jbar =>
      Except.ok (calculate_masked_gradient_body del_u pred hu sigma_t_bar jbar
        moving_average_beta)

/-- The `__main__` block of `train_spin.py` (lines 144-145) binds the module global
`j_sigma_t_bar` to zeros shaped like each kernel. -/
def train_spin_main_j_sigma_t_bar (p : ℕ) : Fin p → ℝ := fun _ => 0

/-- `train_step` of `train_spin.py` (lines 82-114) in script mode (the global
`j_sigma_t_bar` aliases the dict passed in, so the subscript assignment of line 73
mutates it).  The returned tuple is `(masked_gradient, energies, sigma_t_bar,
j_sigma_t_bar)`: `energies = 0` (line 112), the `sigma_t_bar` parameter is returned
unchanged (the blended covariance computed inside `calculate_masked_gradient` never
leaves that function), and the returned `j_sigma_t_bar` is the mutated dict.  The first
component is the masked gradient handed to `opt.update` on line 106. -/
noncomputable def train_spin_train_step {N k p : ℕ}
    (pred hu : Matrix (Fin N) (Fin k) ℝ) (del_u : Fin N → Fin k → Fin p → ℝ)
    (sigma_t_bar : Matrix (Fin k) (Fin k) ℝ) (j_sigma_t_bar : Fin p → ℝ)
    (moving_average_beta : ℝ) :
    (Fin p → ℝ) × ℝ × Matrix (Fin k) (Fin k) ℝ × (Fin p → ℝ) :=
  let mg := calculate_masked_gradient_body del_u pred hu sigma_t_bar j_sigma_t_bar
    moving_average_beta
  (mg.1, 0, sigma_t_bar, mg.2)

/-! ## backbone.py: EigenNet -/

/-- `nn.softplus`: `log(1 + exp x)`. -/
noncomputable def softplus (x : ℝ) : ℝ := Real.log (1 + Real.exp x)

/-- The dense-layer chain of `EigenNet.__call__` (`backbone.py` lines 19-25): a
sequence of biasless dense layers with `softplus` after every layer except the last. -/
inductive DenseChain : ℕ → ℕ → Type where
  | last : {a b : ℕ} → Matrix (Fin a) (Fin b) ℝ → DenseChain a b
  | cons : {a c b : ℕ} → Matrix (Fin a) (Fin c) ℝ → DenseChain c b → DenseChain a b

/-- Applying the chain to a single input row: each non-final layer is
`x ↦ softplus (x · W)`, the final one `x ↦ x · W` (flax `Dense` with `use_bias=False`
right-multiplies the row vector by the kernel). -/
noncomputable def DenseChain.apply :
    {a b : ℕ} → DenseChain a b → (Fin a → ℝ) → Fin b → ℝ
  | _, _, .last W, x => Matrix.vecMul x W
  | _, _, .cons W rest, x => rest.apply fun j => softplus (Matrix.vecMul x W j)

/-- `EigenNet.__call__` (`backbone.py` lines 17-32) on one input point `x`: the chain
output is multiplied by the boundary factor `d = ∏ i (√(2·D² − xᵢ²) − D)` of
lines 28-30. -/
noncomputable def eigenNet {din dout : ℕ} (D : ℝ) (net : DenseChain din dout)
    (x : Fin din → ℝ) : Fin dout → ℝ :=
  fun j => net.apply x j * ∏ i, (Real.sqrt (2 * D ^ 2 - x i ^ 2) - D)

/-- `train_spin.py` line 130: `moving_average_beta = 0.01`. -/
noncomputable def train_spin_moving_average_beta : ℝ := 1 / 100

/-! ## Helper lemmas -/

/-- Closed form of the custom-vjp `jacrev` of the batch covariance: the code's raw
per-batch Jacobian is `(i,j,w) ↦ (2/N) ∑_b u[b,i] · du[b,j,w]`, a function of the
current batch only. -/
theorem jacrev_sigma_eq {N k p : ℕ} (u : Matrix (Fin N) (Fin k) ℝ)
    (du : Fin N → Fin k → Fin p → ℝ) :
    jacrev_sigma u du = fun i j w => (2 / (N : ℝ)) * ∑ b, u b i * du b j w := by
  funext i j w
  have hrow : ∀ b : Fin N,
      (∑ m, (((N : ℝ))⁻¹ • (u * Matrix.stdBasisMatrix i j (1:ℝ))) b m * du b m w)
      = (N : ℝ)⁻¹ * (u b i * du b j w) := by
    intro b
    have hterm : ∀ m, (((N : ℝ))⁻¹ • (u * Matrix.stdBasisMatrix i j (1:ℝ))) b m * du b m w
        = if m = j then (N : ℝ)⁻¹ * (u b i * du b j w) else 0 := by
      intro m
      rw [Matrix.smul_apply, Matrix.mul_apply]
      by_cases hm : m = j
      · subst hm
        simp only [Matrix.stdBasisMatrix, Matrix.of_apply, and_true, mul_ite, mul_one,
          mul_zero, Finset.sum_ite_eq, Finset.mem_univ, if_true, smul_eq_mul, if_pos]
        ring
      · have hz : ∀ l : Fin k, (if i = l ∧ j = m then (1:ℝ) else 0) = 0 := by
          intro l
          rw [if_neg]
          rintro ⟨-, hjm⟩
          exact hm hjm.symm
        simp only [Matrix.stdBasisMatrix, Matrix.of_apply, smul_eq_mul]
        have hsum : (∑ l, u b l * if i = l ∧ j = m then (1:ℝ) else 0) = 0 := by
          refine Finset.sum_eq_zero fun l _ => ?_
          rw [hz l, mul_zero]
        rw [hsum, mul_zero, zero_mul, if_neg hm]
    rw [Finset.sum_congr rfl fun m _ => hterm m, Finset.sum_ite_eq' Finset.univ j
      (fun _ => (N : ℝ)⁻¹ * (u b i * du b j w))]
    simp
  show (∑ b, ∑ m, (((N : ℝ))⁻¹ • (u * Matrix.stdBasisMatrix i j (1:ℝ))) b m * du b m w) +
       (∑ b, ∑ m, (((N : ℝ))⁻¹ • (u * Matrix.stdBasisMatrix i j (1:ℝ))) b m * du b m w) =
       (2 / (N : ℝ)) * ∑ b, u b i * du b j w
  rw [Finset.sum_congr rfl fun b _ => hrow b, ← Finset.mul_sum]
  rw [div_eq_mul_inv]
  ring

/-! ## Concrete inputs used by the counterexamples -/

/-- A concrete `1 × 1` batch output with value `2`. -/
noncomputable def exb_u : Matrix (Fin 1) (Fin 1) ℝ := Matrix.of fun _ _ => 2

/-- A concrete `1 × 1` operator output with value `3`. -/
noncomputable def exb_hu : Matrix (Fin 1) (Fin 1) ℝ := Matrix.of fun _ _ => 3

/-- A zero parameter Jacobian. -/
def exb_zero_jac : Fin 1 → Fin 1 → Fin 1 → ℝ := fun _ _ _ => 0

/-- A concrete Jacobian moving average with value `1`. -/
noncomputable def exb_jbar : Fin 1 → Fin 1 → Fin 1 → ℝ := fun _ _ _ => 1

/-- One concrete stfn training step: `u = [[2]]`, `h_u = [[3]]`, zero parameter
Jacobians, `Σ̄ = I`, `J̄ ≡ 1`, `β = 0`. -/
noncomputable def exb_step : StfnStep 1 1 :=
  stfn_train_step exb_u exb_hu exb_zero_jac exb_zero_jac 1 exb_jbar 0

theorem exb_covariance_uu : covariance exb_u exb_u 0 0 = 4 := by
  simp [covariance, exb_u, Fin.sum_univ_one]
  norm_num

theorem matrix_one_inv {k : ℕ} : (1 : Matrix (Fin k) (Fin k) ℝ)⁻¹ = 1 :=
  Matrix.inv_eq_left_inv (by simp)

theorem exb_step_LInv : exb_step.LInv = 1 := by
  show (cholesky (moving_average (1 : Matrix (Fin 1) (Fin 1) ℝ)
      (covariance exb_u exb_u) 0))⁻¹ = 1
  rw [show moving_average (1 : Matrix (Fin 1) (Fin 1) ℝ) (covariance exb_u exb_u) 0 =
      1 from by simp [moving_average]]
  rw [cholesky_one_fin1, matrix_one_inv]

theorem exb_step_A2 : exb_step.A2 = Matrix.of fun _ _ => (-6 : ℝ) := by
  have h : exb_step.A2 = -(exb_step.LInvᵀ * triu (exb_step.LInv *
      covariance exb_u exb_hu * exb_step.LInvᵀ *
      Matrix.diagonal fun i => exb_step.LInv i i)) := rfl
  rw [h, exb_step_LInv]
  ext a b
  fin_cases a
  fin_cases b
  simp [triu, covariance, exb_u, exb_hu, Matrix.one_apply, Matrix.mul_apply,
    Fin.sum_univ_one, Matrix.diagonal]
  norm_num

theorem exb_step_jSigmaTBar : exb_step.jSigmaTBar = exb_jbar := by
  show moving_average exb_jbar (jacrev_sigma exb_u exb_zero_jac) 0 = exb_jbar
  simp [moving_average]

theorem exb_step_A1JPi : exb_step.A1JPi = fun _ => (0 : ℝ) := by
  show vjp_pi exb_u exb_hu exb_zero_jac exb_zero_jac _ = fun _ => (0 : ℝ)
  funext w
  simp [vjp_pi, vjp_pullback, exb_zero_jac]

theorem exb_step_gradients : exb_step.gradients 0 = -6 := by
  have h : exb_step.gradients 0 =
      (∑ i, ∑ j, exb_step.A2 i j * exb_step.jSigmaTBar i j 0) + exb_step.A1JPi 0 := rfl
  rw [h, exb_step_A2, exb_step_jSigmaTBar, exb_step_A1JPi]
  simp [exb_jbar, Fin.sum_univ_one]

/-! ## Claims -/

/-- C1: in both gradient engines the Σ-term of the parameter gradient is the closed
form `−L⁻ᵗ·triu(Λ·diag(diag(L⁻¹)))` contracted against the moving-averaged covariance
Jacobian `J̄` — which is updated exactly once per step from the raw per-batch Jacobian
(a function of the current batch only, with closed form `(2/N)·uᵀdu` in the stfn
variant and `uᵀ·grad_theta` in the jax_spin variant) — and never against the per-batch
Jacobian itself or a differentiated path through the recursive average. -/
theorem claim1_sigma_term_uses_averaged_jacobian {N k p : ℕ}
    (u hu : Matrix (Fin N) (Fin k) ℝ) (du dhu : Fin N → Fin k → Fin p → ℝ)
    (sigma_t_bar : Matrix (Fin k) (Fin k) ℝ)
    (j_sigma_t_bar : Fin k → Fin k → Fin p → ℝ) (beta : ℝ)
    (outputs : SpinOutputs N k) (sigma_jac_avg : Fin k → Fin k → Fin p → ℝ)
    (grad_theta : Fin N → Fin k → Fin p → ℝ) :
    ((stfn_train_step u hu du dhu sigma_t_bar j_sigma_t_bar beta).jSigmaTBar =
      fun i j w => (1 - beta) * j_sigma_t_bar i j w +
        beta * ((2 / (N : ℝ)) * ∑ b, u b i * du b j w)) ∧
    ((stfn_train_step u hu du dhu sigma_t_bar j_sigma_t_bar beta).A2 =
      -(((stfn_train_step u hu du dhu sigma_t_bar j_sigma_t_bar beta).LInv)ᵀ *
        triu ((stfn_train_step u hu du dhu sigma_t_bar j_sigma_t_bar beta).Lambda *
          Matrix.diagonal fun i =>
            (stfn_train_step u hu du dhu sigma_t_bar j_sigma_t_bar beta).LInv i i))) ∧
    ((stfn_train_step u hu du dhu sigma_t_bar j_sigma_t_bar beta).gradients = fun w =>
      (∑ i, ∑ j,
        (stfn_train_step u hu du dhu sigma_t_bar j_sigma_t_bar beta).A2 i j *
        (stfn_train_step u hu du dhu sigma_t_bar j_sigma_t_bar beta).jSigmaTBar i j w) +
      (stfn_train_step u hu du dhu sigma_t_bar j_sigma_t_bar beta).A1JPi w) ∧
    ((spin_masked_gradients outputs sigma_jac_avg grad_theta beta).sigma_jac_avg =
      fun i j w => (1 - beta) * sigma_jac_avg i j w +
        beta * ∑ b, outputs.u b i * grad_theta b j w) ∧
    ((spin_masked_gradients outputs sigma_jac_avg grad_theta beta).gradients = fun w =>
      -((( ∑ i, ∑ b,
            ((outputs.choliᵀ * Matrix.diagonal fun a => outputs.choli a a)ᵀ *
              (outputs.operator)ᵀ) i b * grad_theta b i w) +
          (∑ a, ∑ c,
            (-(outputs.choliᵀ *
              triu (outputs.rq * Matrix.diagonal fun i => outputs.choli i i)))ᵀ a c *
            (spin_masked_gradients outputs sigma_jac_avg grad_theta beta).sigma_jac_avg
              c a w)) / N)) := by
  refine ⟨?_, rfl, rfl, rfl, rfl⟩
  funext i j w
  show (1 - beta) * j_sigma_t_bar i j w + beta * jacrev_sigma u du i j w = _
  rw [jacrev_sigma_eq]

/-- C2 (amended): in both variants the Π-term of the gradient is the closed-form
cotangent `L⁻ᵗ·diag(diag(L⁻¹))` contracted against the Π derivative of the current
batch (via both the evaluation and operator branches in the stfn variant; via the
evaluation branch only, with the operator output held fixed, in the jax_spin variant),
and the total gradient is the Σ-term contraction plus the Π-term.  Only the jax_spin
variant negates the computed gradient before handing it to the (descent) optimizer
(ascent on the summed eigenvalues); the stfn `train_step` passes the sum unnegated to
`opt_update` (descent on the summed energies). -/
theorem claim2_pi_term_and_sign {N k p : ℕ}
    (u hu : Matrix (Fin N) (Fin k) ℝ) (du dhu : Fin N → Fin k → Fin p → ℝ)
    (sigma_t_bar : Matrix (Fin k) (Fin k) ℝ)
    (j_sigma_t_bar : Fin k → Fin k → Fin p → ℝ) (beta : ℝ)
    (outputs : SpinOutputs N k) (sigma_jac_avg : Fin k → Fin k → Fin p → ℝ)
    (grad_theta : Fin N → Fin k → Fin p → ℝ) :
    ((stfn_train_step u hu du dhu sigma_t_bar j_sigma_t_bar beta).A1JPi =
      vjp_pi u hu du dhu
        (((stfn_train_step u hu du dhu sigma_t_bar j_sigma_t_bar beta).LInv)ᵀ *
          Matrix.diagonal fun i =>
            (stfn_train_step u hu du dhu sigma_t_bar j_sigma_t_bar beta).LInv i i)) ∧
    ((stfn_train_step u hu du dhu sigma_t_bar j_sigma_t_bar beta).gradients = fun w =>
      (∑ i, ∑ j,
        (stfn_train_step u hu du dhu sigma_t_bar j_sigma_t_bar beta).A2 i j *
        (stfn_train_step u hu du dhu sigma_t_bar j_sigma_t_bar beta).jSigmaTBar i j w) +
      (stfn_train_step u hu du dhu sigma_t_bar j_sigma_t_bar beta).A1JPi w) ∧
    ((spin_masked_gradients outputs sigma_jac_avg grad_theta beta).gradients = fun w =>
      -((( ∑ i, ∑ b,
            ((outputs.choliᵀ * Matrix.diagonal fun a => outputs.choli a a)ᵀ *
              (outputs.operator)ᵀ) i b * grad_theta b i w) +
          (∑ a, ∑ c,
            (-(outputs.choliᵀ *
              triu (outputs.rq * Matrix.diagonal fun i => outputs.choli i i)))ᵀ a c *
            (spin_masked_gradients outputs sigma_jac_avg grad_theta beta).sigma_jac_avg
              c a w)) / N)) :=
  ⟨rfl, rfl, rfl⟩

/-- C2 counterexample: at a concrete input the value the stfn `train_step` hands to the
optimizer equals the sum of the two contractions itself (here `−6`), not its negation
(`6`), refuting "the update applied by the optimizer is the negative of this computed
gradient" for the stfn variant. -/
theorem claim2_counterexample :
    exb_step.gradients 0 ≠
      -((∑ i, ∑ j, exb_step.A2 i j * exb_step.jSigmaTBar i j 0) + exb_step.A1JPi 0) := by
  have h : exb_step.gradients 0 =
      (∑ i, ∑ j, exb_step.A2 i j * exb_step.jSigmaTBar i j 0) + exb_step.A1JPi 0 := rfl
  rw [← h, exb_step_gradients]
  norm_num

/-- C3 (amended): in the jax_spin variant the first iteration (`cnt = 0`) forces
`β = 1`, so the first step's updated `Σ̄` equals the first batch covariance
independently of the seed, and every later iteration uses the configured `self.beta`;
the stfn variant passes the configured `moving_average_beta` unchanged at every epoch,
including the first (no forcing). -/
theorem claim3_cold_start {Θ I : Type _} {N k : ℕ}
    (net_u operator : Θ → I → Matrix (Fin N) (Fin k) ℝ) (params : Θ) (inputs : I)
    (sigma_seed : Matrix (Fin k) (Fin k) ℝ) (self_beta : ℝ) :
    spin_train_beta self_beta 0 = 1 ∧
    (∀ cnt : ℕ, 0 < cnt → spin_train_beta self_beta cnt = self_beta) ∧
    (evaluate_spin net_u operator params inputs sigma_seed (spin_train_beta self_beta 0)).2 =
      covariance (net_u params inputs) (net_u params inputs) ∧
    (∀ b : ℝ, ∀ epoch : ℕ, stfn_augmented_beta b epoch = b) := by
  refine ⟨if_neg (lt_irrefl 0), fun cnt hc => if_pos hc, ?_, fun _ _ => rfl⟩
  show (1 - spin_train_beta self_beta 0) • sigma_seed +
      spin_train_beta self_beta 0 • covariance (net_u params inputs) (net_u params inputs) =
      covariance (net_u params inputs) (net_u params inputs)
  rw [show spin_train_beta self_beta 0 = 1 from if_neg (lt_irrefl 0)]
  simp

/-- Witness for C3: instantiating the theorem at `cnt = 1` and `self.beta = 1/2`. -/
theorem claim3_cold_start_witness : 0 < 1 ∧ spin_train_beta (1/2) 1 = 1/2 := by
  refine ⟨by norm_num, ?_⟩
  have h := claim3_cold_start (Θ := Unit) (I := Unit) (N := 1) (k := 1)
    (fun _ _ => 0) (fun _ _ => 0) () () 0 (1/2)
  exact h.2.1 1 (by norm_num)

/-- C3 counterexample: in the stfn variant the first epoch (`epoch = 1`) uses the
configured `β = 0.01`, so the first step's `Σ̄` is `0.99·I + 0.01·Σ_batch`, not the
first batch covariance: at `u = [[2]]` the step returns `[[1.03]] ≠ [[4]]`. -/
theorem claim3_counterexample :
    (stfn_train_step exb_u exb_hu exb_zero_jac exb_zero_jac (stfn_init_sigma 1)
        (stfn_init_j_sigma 1 1)
        (stfn_augmented_beta stfn_moving_average_beta 1)).sigmaTBar ≠
      covariance exb_u exb_u := by
  intro h
  have h0 := congrFun (congrFun h 0) 0
  have he : (stfn_train_step exb_u exb_hu exb_zero_jac exb_zero_jac (stfn_init_sigma 1)
      (stfn_init_j_sigma 1 1)
      (stfn_augmented_beta stfn_moving_average_beta 1)).sigmaTBar 0 0 =
      (1 - stfn_moving_average_beta) * 1 +
        stfn_moving_average_beta * covariance exb_u exb_u 0 0 := rfl
  rw [he, exb_covariance_uu] at h0
  rw [stfn_moving_average_beta] at h0
  norm_num at h0

/-- C4 (code bug in `train_spin.py`): at a concrete input the step returns the
`sigma_t_bar` it received (the identity seed) unchanged, while the once-applied
moving-average blend of that seed with the batch covariance differs from it; the
returned `j_sigma_t_bar` is the once-updated average (through the global-aliasing
mutation). -/
theorem claim4_step_returns_stale_sigma :
    ((train_spin_train_step exb_u exb_hu exb_zero_jac (1 : Matrix (Fin 1) (Fin 1) ℝ)
        (train_spin_main_j_sigma_t_bar 1) train_spin_moving_average_beta).2.2.1 =
      (1 : Matrix (Fin 1) (Fin 1) ℝ)) ∧
    ((train_spin_train_step exb_u exb_hu exb_zero_jac (1 : Matrix (Fin 1) (Fin 1) ℝ)
        (train_spin_main_j_sigma_t_bar 1) train_spin_moving_average_beta).2.2.2 =
      (calculate_masked_gradient_body exb_zero_jac exb_u exb_hu
        (1 : Matrix (Fin 1) (Fin 1) ℝ) (train_spin_main_j_sigma_t_bar 1)
        train_spin_moving_average_beta).2) ∧
    moving_average (1 : Matrix (Fin 1) (Fin 1) ℝ) (covariance exb_u exb_u)
      train_spin_moving_average_beta ≠ (1 : Matrix (Fin 1) (Fin 1) ℝ) := by
  refine ⟨rfl, rfl, fun h => ?_⟩
  have h0 := congrFun (congrFun h 0) 0
  have he : moving_average (1 : Matrix (Fin 1) (Fin 1) ℝ) (covariance exb_u exb_u)
      train_spin_moving_average_beta 0 0 =
      (1 - train_spin_moving_average_beta) * 1 +
        train_spin_moving_average_beta * covariance exb_u exb_u 0 0 := rfl
  rw [he, exb_covariance_uu] at h0
  rw [train_spin_moving_average_beta] at h0
  have h1 : ((1 : Matrix (Fin 1) (Fin 1) ℝ)) 0 0 = 1 := rfl
  rw [h1] at h0
  norm_num at h0

/-- C6 counterexample: the jax_spin trainer seeds the covariance moving average with
`np.ones(k)`, which broadcasts to the all-ones matrix — not the `k × k` identity
(entry `(0,1)` is `1`, not `0`, already for `k = 2`). -/
theorem claim6_counterexample :
    spin_init_sigma_avg_mat 2 ≠ (1 : Matrix (Fin 2) (Fin 2) ℝ) := by
  intro h
  have h0 := congrFun (congrFun h 0) 1
  have he : spin_init_sigma_avg_mat 2 0 1 = 1 := rfl
  rw [he, Matrix.one_apply_ne (by decide)] at h0
  exact one_ne_zero h0

/-- C6 (amended): the stfn trainer initializes `Σ̄` to the `k × k` identity and `J̄` to
zero tensors shaped like the parameters broadcast by `k × k`; the jax_spin trainer
instead seeds `Σ̄` with the all-ones length-`k` vector (broadcasting to the all-ones
matrix in the blend) and seeds `J̄` with zeros (`init_sigma_jac` multiplies by `0`). -/
theorem claim6_initialization {N k p : ℕ} (u : Matrix (Fin N) (Fin k) ℝ)
    (grad_theta : Fin N → Fin k → Fin p → ℝ) :
    stfn_init_sigma k = 1 ∧
    stfn_init_j_sigma k p = (fun _ _ _ => 0) ∧
    spin_init_sigma_avg k = (fun _ => 1) ∧
    spin_init_sigma_avg_mat k = Matrix.of (fun _ _ => 1) ∧
    spin_init_sigma_jac u grad_theta = fun _ _ _ => 0 := by
  refine ⟨rfl, rfl, rfl, rfl, ?_⟩
  funext i j w
  exact mul_zero _

/-- C7: the eigenvalue estimates are the diagonal entries of the whitened operator
matrix `Λ = L⁻¹ Π L⁻ᵗ` (with `L` the Cholesky factor of the blended covariance and `Π`
the batch operator cross-covariance), the training loss is their sum, and the
orthonormalized eigenfunction values at the batch are `U·L⁻ᵗ` — in both variants. -/
theorem claim7_eigenvalues_and_eigenfunctions {Θ I : Type _} {N k p : ℕ}
    (net_u operator : Θ → I → Matrix (Fin N) (Fin k) ℝ)
    (grad_theta_fn : Θ → I → Fin N → Fin k → Fin p → ℝ) (params : Θ) (inputs : I)
    (averages : Matrix (Fin k) (Fin k) ℝ × (Fin k → Fin k → Fin p → ℝ)) (beta : ℝ)
    (u hu : Matrix (Fin N) (Fin k) ℝ) (du dhu : Fin N → Fin k → Fin p → ℝ)
    (sigma_t_bar : Matrix (Fin k) (Fin k) ℝ)
    (j_sigma_t_bar : Fin k → Fin k → Fin p → ℝ) :
    ((evaluate_spin net_u operator params inputs averages.1 beta).1.choli =
      (cholesky ((1 - beta) • averages.1 +
        beta • covariance (net_u params inputs) (net_u params inputs)))⁻¹) ∧
    ((evaluate_spin net_u operator params inputs averages.1 beta).1.rq =
      (evaluate_spin net_u operator params inputs averages.1 beta).1.choli *
        covariance (operator params inputs) (net_u params inputs) *
        ((evaluate_spin net_u operator params inputs averages.1 beta).1.choli)ᵀ) ∧
    ((loss_and_grad net_u operator grad_theta_fn params inputs averages beta).1 =
      ∑ i, (evaluate_spin net_u operator params inputs averages.1 beta).1.rq i i) ∧
    ((eigenpairs net_u operator params inputs averages.1 beta).1 =
      fun i => (evaluate_spin net_u operator params inputs averages.1 beta).1.rq i i) ∧
    ((eigenpairs net_u operator params inputs averages.1 beta).2 =
      (evaluate_spin net_u operator params inputs averages.1 beta).1.u *
        ((evaluate_spin net_u operator params inputs averages.1 beta).1.choli)ᵀ) ∧
    ((stfn_train_step u hu du dhu sigma_t_bar j_sigma_t_bar beta).LInv =
      (cholesky (moving_average sigma_t_bar (covariance u u) beta))⁻¹) ∧
    ((stfn_train_step u hu du dhu sigma_t_bar j_sigma_t_bar beta).Lambda =
      (stfn_train_step u hu du dhu sigma_t_bar j_sigma_t_bar beta).LInv *
        covariance u hu *
        ((stfn_train_step u hu du dhu sigma_t_bar j_sigma_t_bar beta).LInv)ᵀ) ∧
    ((stfn_train_step u hu du dhu sigma_t_bar j_sigma_t_bar beta).energies = fun i =>
      (stfn_train_step u hu du dhu sigma_t_bar j_sigma_t_bar beta).Lambda i i) ∧
    ((stfn_train_step u hu du dhu sigma_t_bar j_sigma_t_bar beta).loss =
      ∑ i, (stfn_train_step u hu du dhu sigma_t_bar j_sigma_t_bar beta).energies i) :=
  ⟨rfl, rfl, rfl, rfl, rfl, rfl, rfl, rfl, rfl⟩

/-- C8: for every positive-definite `Σ̄` the Cholesky factorization produces a
lower-triangular `L` with positive diagonal satisfying `L·Lᵀ = Σ̄`, and the whitening
round trip `L·L⁻¹ = 1` holds; the code obtains `L⁻¹` by inverting the triangular factor
(`choli = chol⁻¹` in `evaluate_spin`, `L_inv = L⁻¹` in both other variants), never by
inverting `Σ̄` itself. -/
theorem claim8_factorize_contract {k : ℕ} (S : Matrix (Fin k) (Fin k) ℝ)
    (hS : S.PosDef) :
    LowerTri (cholesky S) ∧ (∀ i, 0 < cholesky S i i) ∧
    cholesky S * (cholesky S)ᵀ = S ∧ cholesky S * (cholesky S)⁻¹ = 1 :=
  ⟨cholesky_lowerTri hS, cholesky_diag_pos hS, cholesky_mul_transpose hS,
    cholesky_mul_inv hS⟩

/-- Witness for C8 at the concrete positive-definite matrix `Σ̄ = I` (`k = 2`). -/
theorem claim8_factorize_contract_witness :
    (1 : Matrix (Fin 2) (Fin 2) ℝ).PosDef ∧
    (LowerTri (cholesky (1 : Matrix (Fin 2) (Fin 2) ℝ)) ∧
      (∀ i, 0 < cholesky (1 : Matrix (Fin 2) (Fin 2) ℝ) i i) ∧
      cholesky (1 : Matrix (Fin 2) (Fin 2) ℝ) *
        (cholesky (1 : Matrix (Fin 2) (Fin 2) ℝ))ᵀ = 1 ∧
      cholesky (1 : Matrix (Fin 2) (Fin 2) ℝ) *
        (cholesky (1 : Matrix (Fin 2) (Fin 2) ℝ))⁻¹ = 1) :=
  ⟨Matrix.PosDef.one, claim8_factorize_contract 1 Matrix.PosDef.one⟩

/-- C9 counterexample: when the `__main__` block of `train_spin.py` has run (the only
execution mode the script supports), the module global `j_sigma_t_bar` is bound, so a
call of `calculate_masked_gradient` returns a gradient instead of raising `NameError` —
refuting "every call fails with a NameError". -/
theorem claim9_counterexample :
    calculate_masked_gradient (some (train_spin_main_j_sigma_t_bar 1)) exb_zero_jac
      exb_u exb_hu (1 : Matrix (Fin 1) (Fin 1) ℝ) train_spin_moving_average_beta =
    Except.ok (calculate_masked_gradient_body exb_zero_jac exb_u exb_hu
      (1 : Matrix (Fin 1) (Fin 1) ℝ) (train_spin_main_j_sigma_t_bar 1)
      train_spin_moving_average_beta) := rfl

/-- C9 (amended): `calculate_masked_gradient` raises `NameError` exactly when the
module global `j_sigma_t_bar` is unbound (the module imported without executing its
`__main__` block); when the global is bound — as after line 144 of the script — every
call returns a gradient computed by the function body. -/
theorem claim9_name_resolution {N k p : ℕ}
    (del_u : Fin N → Fin k → Fin p → ℝ) (pred hu : Matrix (Fin N) (Fin k) ℝ)
    (sigma_t_bar : Matrix (Fin k) (Fin k) ℝ) (beta : ℝ) :
    (calculate_masked_gradient none del_u pred hu sigma_t_bar beta =
      Except.error ()) ∧
    (∀ jbar : Fin p → ℝ,
      calculate_masked_gradient (some jbar) del_u pred hu sigma_t_bar beta =
      Except.ok (calculate_masked_gradient_body del_u pred hu sigma_t_bar jbar beta)) :=
  ⟨rfl, fun _ => rfl⟩

/-- C10: for every parameter setting (dense chain) and every input point with some
coordinate equal to `D` or `−D` (with `D ≥ 0` the half-width of the sampling box), the
EigenNet output is the zero vector: the factor `√(2D² − xᵢ²) − D` of the built-in
boundary product vanishes at that coordinate. -/
theorem claim10_boundary_condition {din dout : ℕ} (D : ℝ) (hD : 0 ≤ D)
    (net : DenseChain din dout) (x : Fin din → ℝ) (i : Fin din)
    (hx : x i = D ∨ x i = -D) :
    eigenNet D net x = fun _ => 0 := by
  funext j
  have hsq : x i ^ 2 = D ^ 2 := by
    rcases hx with h | h
    · rw [h]
    · rw [h]; ring
  have hfac : Real.sqrt (2 * D ^ 2 - x i ^ 2) - D = 0 := by
    rw [hsq, show 2 * D ^ 2 - D ^ 2 = D ^ 2 by ring, Real.sqrt_sq hD, sub_self]
  show DenseChain.apply net x j * ∏ a, (Real.sqrt (2 * D ^ 2 - x a ^ 2) - D) = 0
  rw [Finset.prod_eq_zero (Finset.mem_univ i) hfac, mul_zero]

/-- Witness for C10: a one-layer network on the box `[-1,1]²` at the boundary point
`(1, 0)`. -/
theorem claim10_boundary_condition_witness :
    (0 : ℝ) ≤ 1 ∧ ((![1, 0] : Fin 2 → ℝ) 0 = 1 ∨ (![1, 0] : Fin 2 → ℝ) 0 = -1) ∧
    eigenNet 1 (DenseChain.last (Matrix.of fun _ _ => (1 : ℝ)) : DenseChain 2 1)
      ![1, 0] = fun _ => 0 := by
  refine ⟨by norm_num, Or.inl rfl, ?_⟩
  exact claim10_boundary_condition 1 (by norm_num) _ _ 0 (Or.inl rfl)

end SpINUp
